import Mathlib

/-!
Verification of the item-classification route of the bazaar-tracker
repository (`src/app/api/vision/items/classify/route.ts`).

The pure computational core of the route is embedded shallowly:
perceptual-hash bit extraction, hex encoding, Hamming distance on
16-hex-character hashes, the triple-hash composite score, slot-group
consolidation, per-group catalog matching, cross-group dominance
suppression, contract-candidate flattening, status derivation and
canonical evidence ordering.  Machine numbers of the JavaScript source
(always integral in the embedded fragment, apart from the two exact
power-of-two divisions noted locally) are modelled as `Nat`/`Int`/`ℚ`.
-/

namespace BazaarTracker

/-- Value of one hex character as parsed by `parseInt(c, 16)`; characters
outside `[0-9a-fA-F]` parse to NaN, which the later `^` coerces to `0`
(`ToInt32 NaN = 0`), so they are modelled as value `0`. -/
def hexVal (c : Char) : Nat :=
  if 48 ≤ c.toNat ∧ c.toNat ≤ 57 then c.toNat - 48
  else if 97 ≤ c.toNat ∧ c.toNat ≤ 102 then c.toNat - 87
  else if 65 ≤ c.toNat ∧ c.toNat ≤ 70 then c.toNat - 55
  else 0

theorem hexVal_lt_16 (c : Char) : hexVal c < 16 := by
  unfold hexVal
  split <;> [omega; skip]
  split <;> [omega; skip]
  split <;> omega

/-- Popcount of a 4-bit value, exactly as the source computes it:
`(x & 1) + ((x >> 1) & 1) + ((x >> 2) & 1) + ((x >> 3) & 1)`. -/
def nibblePop (x : Nat) : Nat :=
  x % 2 + x / 2 % 2 + x / 4 % 2 + x / 8 % 2

/-- Translation of `hammingDistanceHex64`: returns 64 unless both inputs
have exactly 16 characters, otherwise sums the per-nibble popcounts of the
xor of the parsed hex digits. -/
def hammingDistanceHex64 (a16 b16 : String) : Nat :=
  if a16.data.length = 16 ∧ b16.data.length = 16 then
    (List.zipWith (fun ca cb => nibblePop (hexVal ca ^^^ hexVal cb)) a16.data b16.data).sum
  else 64

/-- Minimum score for a candidate to be retained (`MIN_SCORE_CANDIDATE`). -/
def MIN_SCORE_CANDIDATE : Int := 38

/-- Auto-detect requires this stricter score (`MIN_SCORE_AUTODETECT`). -/
def MIN_SCORE_AUTODETECT : Int := 46

/-- Best score must beat the second by this margin (`MIN_AUTODETECT_MARGIN`). -/
def MIN_AUTODETECT_MARGIN : Int := 3

/-- Adjacent-slot merge threshold (`GROUP_MERGE_MAX_ADJ_DIST`). -/
def GROUP_MERGE_MAX_ADJ_DIST : Nat := 20

/-- Dominance-count threshold (`DOMINANT_BEST_COUNT`). -/
def DOMINANT_BEST_COUNT : Nat := 2

/-- Margin bonus demanded of a dominant best item (`DOMINANT_MARGIN_BONUS`). -/
def DOMINANT_MARGIN_BONUS : Int := 2

/-- Retained candidates per group (`TOP_N`). -/
def TOP_N : Nat := 5

/-- Translation of `scoreTripleHash`: `64 - Math.round(weighted / 4)` with
`weighted = da + dd + 2*dp`.  Since `weighted` is a natural number,
`Math.round(weighted / 4)` (exact in IEEE doubles, half rounded up) equals
`(weighted + 2) / 4` in natural division. -/
def scoreTripleHash (aHashA dHashA pHashA aHashB dHashB pHashB : String) : Int :=
  let da := hammingDistanceHex64 aHashA aHashB
  let dd := hammingDistanceHex64 dHashA dHashB
  let dp := hammingDistanceHex64 pHashA pHashB
  let weighted := da + dd + dp * 2
  64 - ((weighted + 2) / 4 : Nat)

/-- JavaScript `Math.round`: floor of the argument plus one half
(half-way cases round toward positive infinity). -/
def jsRound (q : ℚ) : Int := ⌊q + 1 / 2⌋

/-- Popcount of a natural number (sum of binary digits); the spec-side
meaning of "popcount(A xor B)". -/
def natPopCount (n : Nat) : Nat :=
  if n = 0 then 0 else n % 2 + natPopCount (n / 2)
decreasing_by exact Nat.div_lt_self (Nat.pos_of_ne_zero (by assumption)) one_lt_two

/-- Numeric value of a big-endian hex-character list (the 64-bit pattern a
16-hex-character hash denotes). -/
def hexToNat : List Char → Nat
  | [] => 0
  | c :: cs => hexVal c * 16 ^ cs.length + hexToNat cs

theorem natPopCount_zero : natPopCount 0 = 0 := by
  rw [natPopCount]
  rfl

theorem natPopCount_eq (n : Nat) : natPopCount n = n % 2 + natPopCount (n / 2) := by
  rw [natPopCount]
  split
  · subst n
    rw [natPopCount_zero]
  · rfl

theorem hexToNat_lt (l : List Char) : hexToNat l < 16 ^ l.length := by
  induction l with
  | nil => simp [hexToNat]
  | cons c cs ih =>
    have h := hexVal_lt_16 c
    have hp : 16 ^ cs.length > 0 := Nat.pos_pow_of_pos _ (by norm_num)
    calc hexToNat (c :: cs) = hexVal c * 16 ^ cs.length + hexToNat cs := rfl
      _ < hexVal c * 16 ^ cs.length + 16 ^ cs.length := by omega
      _ = (hexVal c + 1) * 16 ^ cs.length := by ring
      _ ≤ 16 * 16 ^ cs.length := Nat.mul_le_mul_right _ (by omega)
      _ = 16 ^ (c :: cs).length := by
          simp [List.length_cons, pow_succ, Nat.mul_comm]

theorem xor_split {k x y r s : Nat} (hr : r < 2 ^ k) (hs : s < 2 ^ k) :
    (x * 2 ^ k + r) ^^^ (y * 2 ^ k + s) = (x ^^^ y) * 2 ^ k + (r ^^^ s) := by
  have hrs : r ^^^ s < 2 ^ k := Nat.xor_lt_two_pow hr hs
  apply Nat.eq_of_testBit_eq
  intro i
  rw [Nat.mul_comm x, Nat.mul_comm y, Nat.mul_comm (x ^^^ y)]
  rw [Nat.testBit_xor, Nat.testBit_mul_pow_two_add _ hr, Nat.testBit_mul_pow_two_add _ hs,
    Nat.testBit_mul_pow_two_add _ hrs]
  by_cases h : i < k
  · simp [h, Nat.testBit_xor]
  · simp [h, Nat.testBit_xor]

theorem natPopCount_split {k x r : Nat} (hr : r < 2 ^ k) :
    natPopCount (x * 2 ^ k + r) = natPopCount x + natPopCount r := by
  induction k generalizing r with
  | zero =>
    have : r = 0 := by omega
    subst this
    simp [natPopCount_zero]
  | succ k ih =>
    have hm : x * 2 ^ (k + 1) = 2 * (x * 2 ^ k) := by ring
    have hr2 : r < 2 * 2 ^ k := by
      rw [pow_succ] at hr
      omega
    rw [natPopCount_eq (x * 2 ^ (k + 1) + r), hm]
    have h1 : (2 * (x * 2 ^ k) + r) % 2 = r % 2 := by omega
    have h2 : (2 * (x * 2 ^ k) + r) / 2 = x * 2 ^ k + r / 2 := by omega
    have h3 : r / 2 < 2 ^ k := by omega
    rw [h1, h2, ih h3, natPopCount_eq r]
    omega

theorem nibblePop_eq_natPopCount {z : Nat} (hz : z < 16) :
    nibblePop z = natPopCount z := by
  rw [natPopCount_eq z, natPopCount_eq (z / 2), natPopCount_eq (z / 2 / 2),
    natPopCount_eq (z / 2 / 2 / 2)]
  have h0 : z / 2 / 2 / 2 / 2 = 0 := by omega
  rw [h0, natPopCount_zero, nibblePop]
  omega

theorem hamming_sum_eq_popCount_xor :
    ∀ (a b : List Char), a.length = b.length →
      (List.zipWith (fun ca cb => nibblePop (hexVal ca ^^^ hexVal cb)) a b).sum =
        natPopCount (hexToNat a ^^^ hexToNat b) := by
  intro a
  induction a with
  | nil =>
    intro b hb
    have : b = [] := by cases b <;> simp_all
    subst this
    simp [hexToNat, natPopCount]
  | cons c cs ih =>
    intro b hb
    cases b with
    | nil => simp at hb
    | cons d ds =>
      have hlen : cs.length = ds.length := by simpa using hb
      have h16 : (16 : Nat) ^ cs.length = 2 ^ (4 * cs.length) := by
        rw [show (16 : Nat) = 2 ^ 4 from rfl, ← pow_mul]
      have hcs : hexToNat cs < 2 ^ (4 * cs.length) := h16 ▸ hexToNat_lt cs
      have hds : hexToNat ds < 2 ^ (4 * cs.length) := by
        rw [hlen] at *
        exact (by rw [show (16 : Nat) = 2 ^ 4 from rfl, ← pow_mul] : (16 : Nat) ^ ds.length = 2 ^ (4 * ds.length)) ▸ hexToNat_lt ds
      have hx : hexVal c ^^^ hexVal d < 16 :=
        Nat.xor_lt_two_pow (n := 4) (hexVal_lt_16 c) (hexVal_lt_16 d)
      calc (List.zipWith (fun ca cb => nibblePop (hexVal ca ^^^ hexVal cb)) (c :: cs) (d :: ds)).sum
          = nibblePop (hexVal c ^^^ hexVal d) +
            (List.zipWith (fun ca cb => nibblePop (hexVal ca ^^^ hexVal cb)) cs ds).sum := by
            simp
        _ = natPopCount (hexVal c ^^^ hexVal d) + natPopCount (hexToNat cs ^^^ hexToNat ds) := by
            rw [nibblePop_eq_natPopCount hx, ih ds hlen]
        _ = natPopCount ((hexVal c ^^^ hexVal d) * 2 ^ (4 * cs.length) +
              (hexToNat cs ^^^ hexToNat ds)) := by
            rw [natPopCount_split (Nat.xor_lt_two_pow hcs hds)]
        _ = natPopCount (hexToNat (c :: cs) ^^^ hexToNat (d :: ds)) := by
            rw [show hexToNat (c :: cs) = hexVal c * 16 ^ cs.length + hexToNat cs from rfl,
              show hexToNat (d :: ds) = hexVal d * 16 ^ ds.length + hexToNat ds from rfl,
              ← hlen, h16, xor_split hcs hds]

theorem nibblePop_le_4 (x : Nat) : nibblePop x ≤ 4 := by
  unfold nibblePop
  omega

theorem zipWith_nibblePop_sum_le :
    ∀ (a b : List Char),
      (List.zipWith (fun ca cb => nibblePop (hexVal ca ^^^ hexVal cb)) a b).sum ≤
        4 * (List.zipWith (fun ca cb => nibblePop (hexVal ca ^^^ hexVal cb)) a b).length := by
  intro a
  induction a with
  | nil => intro b; simp
  | cons c cs ih =>
    intro b
    cases b with
    | nil => simp
    | cons d ds =>
      have h1 := nibblePop_le_4 (hexVal c ^^^ hexVal d)
      have h2 := ih ds
      simp only [List.zipWith_cons_cons, List.sum_cons, List.length_cons]
      omega

theorem hammingDistanceHex64_le_64 (a b : String) : hammingDistanceHex64 a b ≤ 64 := by
  unfold hammingDistanceHex64
  split
  · rename_i h
    obtain ⟨ha, hb⟩ := h
    have hlen : (List.zipWith (fun ca cb => nibblePop (hexVal ca ^^^ hexVal cb)) a.data b.data).length = 16 := by
      simp [List.length_zipWith, ha, hb]
    have := zipWith_nibblePop_sum_le a.data b.data
    omega
  · exact le_refl 64

theorem hammingDistanceHex64_comm (a b : String) :
    hammingDistanceHex64 a b = hammingDistanceHex64 b a := by
  unfold hammingDistanceHex64
  rcases Decidable.em (a.data.length = 16 ∧ b.data.length = 16) with h | h
  · rw [if_pos h, if_pos ⟨h.2, h.1⟩]
    congr 1
    rw [List.zipWith_comm]
    congr 1
    funext ca cb
    rw [Nat.xor_comm]
  · rw [if_neg h, if_neg (fun hc => h ⟨hc.2, hc.1⟩)]

theorem zipWith_nibblePop_self (l : List Char) :
    (List.zipWith (fun ca cb => nibblePop (hexVal ca ^^^ hexVal cb)) l l).sum = 0 := by
  induction l with
  | nil => rfl
  | cons c cs ih =>
    simp only [List.zipWith_cons_cons, List.sum_cons, Nat.xor_self]
    rw [ih]
    rfl

theorem hammingDistanceHex64_self (a : String) (ha : a.data.length = 16) :
    hammingDistanceHex64 a a = 0 := by
  unfold hammingDistanceHex64
  rw [if_pos ⟨ha, ha⟩, zipWith_nibblePop_self]

theorem jsRound_quarter (w : Nat) : jsRound ((w : ℚ) / 4) = ((w + 2) / 4 : Nat) := by
  unfold jsRound
  have hq : (w : ℚ) / 4 + 1 / 2 = ((2 * (w : Int) + 4 : Int) : ℚ) / ((8 : ℕ) : ℚ) := by
    push_cast
    ring
  rw [hq, Rat.floor_intCast_div_natCast]
  have h1 : ((((w : Nat) + 2) / 4 : Nat) : Int) = ((w : Nat) + 2 : Nat) / (4 : Int) := by
    rw [Int.ofNat_tdiv]
    rfl
  rw [h1]
  omega

theorem scoreTripleHash_eq_round (aA dA pA aB dB pB : String) :
    scoreTripleHash aA dA pA aB dB pB =
      64 - jsRound (((hammingDistanceHex64 aA aB + hammingDistanceHex64 dA dB +
        2 * hammingDistanceHex64 pA pB : Nat) : ℚ) / 4) := by
  unfold scoreTripleHash
  dsimp only
  rw [jsRound_quarter, Nat.mul_comm (hammingDistanceHex64 pA pB) 2]

theorem scoreTripleHash_bounds (aA dA pA aB dB pB : String) :
    0 ≤ scoreTripleHash aA dA pA aB dB pB ∧ scoreTripleHash aA dA pA aB dB pB ≤ 64 := by
  unfold scoreTripleHash
  have h1 := hammingDistanceHex64_le_64 aA aB
  have h2 := hammingDistanceHex64_le_64 dA dB
  have h3 := hammingDistanceHex64_le_64 pA pB
  constructor <;> [skip; skip] <;>
    · simp only [sub_nonneg, sub_le_iff_le_add]
      omega

/-- C2: the composite score equals `64 - round((distA + distD + 2*distP)/4)`
(JavaScript `Math.round`, half up), always lies in `[0, 64]`, and on an
identical (well-formed) fingerprint triple it is exactly `64`. -/
theorem claim_C2_composite_score (aA dA pA aB dB pB : String) :
    scoreTripleHash aA dA pA aB dB pB =
      64 - jsRound (((hammingDistanceHex64 aA aB + hammingDistanceHex64 dA dB +
        2 * hammingDistanceHex64 pA pB : Nat) : ℚ) / 4) ∧
    0 ≤ scoreTripleHash aA dA pA aB dB pB ∧
    scoreTripleHash aA dA pA aB dB pB ≤ 64 ∧
    (aA.data.length = 16 → dA.data.length = 16 → pA.data.length = 16 →
      scoreTripleHash aA dA pA aA dA pA = 64) := by
  refine ⟨scoreTripleHash_eq_round aA dA pA aB dB pB,
    (scoreTripleHash_bounds aA dA pA aB dB pB).1,
    (scoreTripleHash_bounds aA dA pA aB dB pB).2, ?_⟩
  intro ha hd hp
  unfold scoreTripleHash
  rw [hammingDistanceHex64_self aA ha, hammingDistanceHex64_self dA hd,
    hammingDistanceHex64_self pA hp]
  rfl

/-- Concrete witness for `claim_C2_composite_score`: the 16-character
all-zero triple scores 64 against itself. -/
theorem claim_C2_composite_score_witness :
    scoreTripleHash "0000000000000000" "0000000000000000" "0000000000000000"
      "0000000000000000" "0000000000000000" "0000000000000000" = 64 :=
  (claim_C2_composite_score "0000000000000000" "0000000000000000" "0000000000000000"
      "0000000000000000" "0000000000000000" "0000000000000000").2.2.2
    (by decide) (by decide) (by decide)

/-- C6: on well-formed 16-hex-character hashes the Hamming distance is the
popcount of the xor of the denoted 64-bit values, is symmetric, vanishes on
equal arguments, and is bounded by 64. -/
theorem claim_C6_hamming_distance (a b : String)
    (ha : a.data.length = 16) (hb : b.data.length = 16) :
    hammingDistanceHex64 a b = natPopCount (hexToNat a.data ^^^ hexToNat b.data) ∧
    hammingDistanceHex64 a b = hammingDistanceHex64 b a ∧
    hammingDistanceHex64 a a = 0 ∧
    hammingDistanceHex64 a b ≤ 64 := by
  refine ⟨?_, hammingDistanceHex64_comm a b, hammingDistanceHex64_self a ha,
    hammingDistanceHex64_le_64 a b⟩
  unfold hammingDistanceHex64
  rw [if_pos ⟨ha, hb⟩]
  exact hamming_sum_eq_popCount_xor a.data b.data (ha.trans hb.symm)

/-- Concrete witness for `claim_C6_hamming_distance`. -/
theorem claim_C6_hamming_distance_witness :
    hammingDistanceHex64 "0123456789abcdef" "fedcba9876543210" =
      natPopCount (hexToNat "0123456789abcdef".data ^^^ hexToNat "fedcba9876543210".data) ∧
    hammingDistanceHex64 "0123456789abcdef" "fedcba9876543210" =
      hammingDistanceHex64 "fedcba9876543210" "0123456789abcdef" ∧
    hammingDistanceHex64 "0123456789abcdef" "0123456789abcdef" = 0 ∧
    hammingDistanceHex64 "0123456789abcdef" "fedcba9876543210" ≤ 64 :=
  claim_C6_hamming_distance "0123456789abcdef" "fedcba9876543210" (by decide) (by decide)

/-- Lower-case hex digit for a nibble value, as produced by
`parseInt(nibble, 2).toString(16)`. -/
def hexDigitChar (n : Nat) : Char :=
  if n < 10 then Char.ofNat (48 + n) else Char.ofNat (87 + n)

/-- Hex encoding of a bit string taken four bits at a time (most
significant bit of each nibble first), as in the `for (i; i += 4)` hex
loops of the source; all call sites pass exactly 64 bits. -/
def bitsToHexChars : List Bool → List Char
  | b0 :: b1 :: b2 :: b3 :: rest =>
      hexDigitChar (8 * b0.toNat + 4 * b1.toNat + 2 * b2.toNat + b3.toNat) ::
        bitsToHexChars rest
  | _ => []

/-- Bit `k` (0-based, most significant bit of the first hex character
first) of a hex-character list: an independent decoder used to state
properties of produced hashes. -/
def hexCharsBit (l : List Char) (k : Nat) : Bool :=
  Nat.testBit (hexVal (l.getD (k / 4) '0')) (3 - k % 4)

/-- Translation of `computePHash64From32x32Gray`: the pixel buffer of the
32×32 grayscale resize, the average of all `32*32` pixels, and one bit per
sample of the low-index 8×8 corner (`pixels[y*32+x]`, row-major `y`
outer), set when the sample is at least the average.  The source compares
`v >= avg` with `avg = sum / (32*32)`, an exact IEEE division by a power
of two of an integer below `2^18`, so the comparison is stated
denominator-free: `32*32*v ≥ sum`. -/
def computePHash64From32x32Gray (pixels : Nat → Nat) : String :=
  let total := ((List.range (32 * 32)).map pixels).sum
  let bits := (List.range 8).flatMap (fun y =>
    (List.range 8).map (fun x => decide (total ≤ 32 * 32 * pixels (y * 32 + x))))
  String.mk (bitsToHexChars bits)

/-- The spec's reading of the pHash construction, kept separate from the
code translation `computePHash64From32x32Gray` in order to compare the
two: each 8×8 amplitude sample is thresholded against the mean of the 64
samples themselves (`v ≥ samples.sum / 64`, stated denominator-free). -/
def computePHash64SpecMean (pixels : Nat → Nat) : String :=
  let samples := (List.range 8).flatMap (fun y =>
    (List.range 8).map (fun x => pixels (y * 32 + x)))
  String.mk (bitsToHexChars (samples.map (fun v => decide (samples.sum ≤ 64 * v))))

theorem hexVal_hexDigitChar {n : Nat} (hn : n < 16) : hexVal (hexDigitChar n) = n := by
  interval_cases n <;> decide

theorem hexCharsBit_bitsToHexChars :
    ∀ (bits : List Bool) (k : Nat), bits.length % 4 = 0 → k < bits.length →
      hexCharsBit (bitsToHexChars bits) k = bits.getD k false
  | [], k, _, hk => by simp at hk
  | [_], _, hmod, _ => by simp at hmod
  | [_, _], _, hmod, _ => by simp at hmod
  | [_, _, _], _, hmod, _ => by simp at hmod
  | b0 :: b1 :: b2 :: b3 :: rest, k, hmod, hk => by
    have hnib : 8 * b0.toNat + 4 * b1.toNat + 2 * b2.toNat + b3.toNat < 16 := by
      cases b0 <;> cases b1 <;> cases b2 <;> cases b3 <;> decide
    by_cases hk4 : k < 4
    · unfold hexCharsBit bitsToHexChars
      have hdiv : k / 4 = 0 := by omega
      rw [hdiv]
      simp only [List.getD_cons_zero]
      rw [hexVal_hexDigitChar hnib]
      interval_cases k <;> cases b0 <;> cases b1 <;> cases b2 <;> cases b3 <;> rfl
    · obtain ⟨k', rfl⟩ : ∃ k', k = k' + 4 := ⟨k - 4, by omega⟩
      have hmod' : rest.length % 4 = 0 := by
        simp only [List.length_cons] at hmod
        omega
      have hk' : k' < rest.length := by
        simp only [List.length_cons] at hk
        omega
      have ih := hexCharsBit_bitsToHexChars rest k' hmod' hk'
      unfold hexCharsBit bitsToHexChars
      have hdiv : (k' + 4) / 4 = k' / 4 + 1 := by omega
      have hm : (k' + 4) % 4 = k' % 4 := by omega
      rw [hdiv, hm]
      simp only [List.getD_cons_succ]
      unfold hexCharsBit at ih
      rw [ih]

theorem flatMap_range8_eq (g : Nat → Nat → Bool) :
    (List.range 8).flatMap (fun y => (List.range 8).map (g y)) =
      (List.range 64).map (fun k => g (k / 8) (k % 8)) := by
  rfl

/-- Pixel pattern separating the code's pHash from the spec's description:
the 8×8 sampled corner is all-zero while the rest of the 32×32 image is
bright. -/
def cexPixels (i : Nat) : Nat :=
  if i % 32 < 8 ∧ i < 256 then 0 else 255

set_option maxRecDepth 40000 in
/-- C5 counterexample: the code thresholds each sample against the mean of
all 1024 pixels of the 32×32 grayscale image, not against the mean of the
64 samples; on `cexPixels` the two constructions produce opposite hashes. -/
theorem claim_C5_phash_counterexample :
    computePHash64From32x32Gray cexPixels = "0000000000000000" ∧
    computePHash64SpecMean cexPixels = "ffffffffffffffff" ∧
    computePHash64From32x32Gray cexPixels ≠ computePHash64SpecMean cexPixels := by
  exact ⟨by decide, by decide, by decide⟩

/-- C5 (amended): each bit of the produced pHash is 1 iff the corresponding
8×8 corner sample is at least the mean of all `32*32` pixels; bit `k`
(most-significant-first) corresponds to the sample at row `k / 8`, column
`k % 8` of the 32×32 grid, and the threshold `sample ≥ total/1024` is
stated denominator-free. -/
theorem claim_C5_phash_bit_rule (pixels : Nat → Nat) (k : Nat) (hk : k < 64) :
    hexCharsBit (computePHash64From32x32Gray pixels).data k =
      decide (((List.range (32 * 32)).map pixels).sum ≤
        1024 * pixels (k / 8 * 32 + k % 8)) := by
  unfold computePHash64From32x32Gray
  dsimp only
  rw [flatMap_range8_eq]
  have hlen : ((List.range 64).map (fun j => decide
      (((List.range (32 * 32)).map pixels).sum ≤
        32 * 32 * pixels (j / 8 * 32 + j % 8)))).length = 64 := by
    simp
  rw [hexCharsBit_bitsToHexChars _ k (by rw [hlen]) (by rw [hlen]; exact hk)]
  rw [List.getD_eq_getElem?_getD, List.getElem?_map,
    List.getElem?_eq_getElem (by simpa using hk), List.getElem_range]
  rw [Option.map_some', Option.getD_some]

/-- Concrete witness for `claim_C5_phash_bit_rule` at bit 0 of a constant
image. -/
theorem claim_C5_phash_bit_rule_witness :
    hexCharsBit (computePHash64From32x32Gray (fun _ => 7)).data 0 =
      decide (((List.range (32 * 32)).map (fun _ => 7)).sum ≤
        1024 * (fun _ : Nat => 7) (0 / 8 * 32 + 0 % 8)) :=
  claim_C5_phash_bit_rule (fun _ => 7) 0 (by decide)

/-- C9: the Hamming-distance function is total on arbitrary strings: the
result is always at most 64, and whenever either input does not have
exactly 16 characters the result is exactly 64. -/
theorem claim_C9_hamming_total (a b : String) :
    hammingDistanceHex64 a b ≤ 64 ∧
    (¬(a.data.length = 16 ∧ b.data.length = 16) → hammingDistanceHex64 a b = 64) := by
  refine ⟨hammingDistanceHex64_le_64 a b, ?_⟩
  intro h
  unfold hammingDistanceHex64
  rw [if_neg h]

/-- Concrete witness for `claim_C9_hamming_total`: a malformed (2-character)
input yields the maximum distance 64. -/
theorem claim_C9_hamming_total_witness :
    hammingDistanceHex64 "ab" "0000000000000000" ≤ 64 ∧
    hammingDistanceHex64 "ab" "0000000000000000" = 64 :=
  ⟨(claim_C9_hamming_total "ab" "0000000000000000").1,
    (claim_C9_hamming_total "ab" "0000000000000000").2 (by decide)⟩

/-- Status values of `ClassificationContractV1`. -/
inductive Status where
  | disabled
  | no_matches
  | matches
  | ambiguous
deriving DecidableEq

/-- Group-level catalog candidate `{itemId, name, score}`. -/
structure Candidate where
  itemId : Int
  name : String
  score : Int
deriving DecidableEq

/-- The `meta` record of a contract candidate; the embedded pipeline only
ever populates the `score` and `group_span` keys. -/
structure CandidateMeta where
  score : Option Int
  group_span : Option Nat
deriving DecidableEq

/-- Contract-level `ClassificationCandidate`. -/
structure ClassificationCandidate where
  kind : String
  id : String
  label : String
  confidence : ℚ
  source : String
  slot_index : Int
  meta : CandidateMeta
deriving DecidableEq

/-- Per-slot features.  The crop box and the (always empty) slot-local
`autoDetected`/`candidates` fields of the source are not read by any
embedded computation and are omitted. -/
structure SlotFeature where
  index : Nat
  aHash64 : String
  dHash64 : String
  pHash64 : String
deriving DecidableEq

/-- Translation of `SlotGroup`; the optional debug fields are `Option`s
because `buildGroups` leaves them unset. -/
structure SlotGroup where
  startSlot : Nat
  span : Nat
  aHash64 : String
  dHash64 : String
  pHash64 : String
  autoDetected : Bool
  candidates : List Candidate
  bestScore : Option Int
  secondScore : Option Int
  bestMargin : Option Int
  ambiguous : Option Bool
deriving DecidableEq

/-- Translation of `deriveStatusFromCandidates`.  The source tallies a
`Map` from `slot_index` to its number of candidates and returns
`ambiguous` when any entry of the map exceeds 1; an entry of the map
exceeds 1 exactly when some listed candidate's own `slot_index` is carried
by at least two candidates, which is how the map scan is rendered here. -/
def deriveStatusFromCandidates (items : List ClassificationCandidate)
    (isDisabled : Bool) : Status :=
  if isDisabled then Status.disabled
  else if items.length = 0 then Status.no_matches
  else if items.any (fun c =>
      2 ≤ items.countP (fun d => d.slot_index == c.slot_index)) then Status.ambiguous
  else Status.matches

/-- Translation of `candidatesFromGroups`: flatten every group's retained
candidates to contract candidates tagged with the group's start slot. -/
def candidatesFromGroups (groups : List SlotGroup) : List ClassificationCandidate :=
  groups.flatMap (fun g => g.candidates.map (fun c =>
    { kind := "item"
      id := toString c.itemId
      label := c.name
      confidence := 0
      source := "hash_match"
      slot_index := (g.startSlot : Int)
      meta := { score := some c.score, group_span := some g.span } }))

/-- Continuity test between slot `j` and slot `j + 1` used by
`buildGroups`; false when either slot does not exist (the source guards
the comparison with `i + span < slots.length`). -/
def adjOk (slots : List SlotFeature) (j : Nat) : Bool :=
  match slots[j]?, slots[j + 1]? with
  | some a, some b => hammingDistanceHex64 a.aHash64 b.aHash64 ≤ GROUP_MERGE_MAX_ADJ_DIST
  | _, _ => false

/-- The span the `buildGroups` loop picks at position `i`: grown from 1
to at most 4, one step at a time, while the next adjacent pair is within
the merge threshold. -/
def spanAt (slots : List SlotFeature) (i : Nat) : Nat :=
  if adjOk slots i then
    if adjOk slots (i + 1) then
      if adjOk slots (i + 2) then 4 else 3
    else 2
  else 1

theorem one_le_spanAt (slots : List SlotFeature) (i : Nat) : 1 ≤ spanAt slots i := by
  unfold spanAt
  split
  · split
    · split <;> omega
    · omega
  · omega

theorem spanAt_le_4 (slots : List SlotFeature) (i : Nat) : spanAt slots i ≤ 4 := by
  unfold spanAt
  split
  · split
    · split <;> omega
    · omega
  · omega

theorem adjOk_lt (slots : List SlotFeature) (j : Nat) (h : adjOk slots j = true) :
    j + 1 < slots.length := by
  unfold adjOk at h
  rcases h1 : slots[j + 1]? with _ | b
  · rcases h0 : slots[j]? with _ | a <;> rw [h0, h1] at h <;> simp at h
  · exact (List.getElem?_eq_some_iff.mp h1).1

theorem spanAt_bound (slots : List SlotFeature) (i : Nat) (h : i < slots.length) :
    i + spanAt slots i ≤ slots.length := by
  unfold spanAt
  split
  · rename_i h1
    split
    · rename_i h2
      split
      · rename_i h3
        have := adjOk_lt slots (i + 2) h3
        omega
      · have := adjOk_lt slots (i + 1) h2
        omega
    · have := adjOk_lt slots i h1
      omega
  · omega

/-- Loop body of `buildGroups`: starting at slot `i`, emit the group for the
span chosen at `i` (representative hashes are the slot's, later replaced
by merged-crop hashes in the route) and continue at `i + span`. -/
def buildGroupsAux (slots : List SlotFeature) (i : Nat) : List SlotGroup :=
  if h : i < slots.length then
    { startSlot := i
      span := spanAt slots i
      aHash64 := (slots.get ⟨i, h⟩).aHash64
      dHash64 := (slots.get ⟨i, h⟩).dHash64
      pHash64 := (slots.get ⟨i, h⟩).pHash64
      autoDetected := false
      candidates := []
      bestScore := none
      secondScore := none
      bestMargin := none
      ambiguous := none } :: buildGroupsAux slots (i + spanAt slots i)
  else []
termination_by slots.length - i
decreasing_by
  have := one_le_spanAt slots i
  omega

/-- Translation of `buildGroups`. -/
def buildGroups (slots : List SlotFeature) : List SlotGroup :=
  buildGroupsAux slots 0

theorem buildGroupsAux_spec (slots : List SlotFeature) :
    ∀ n i, slots.length - i ≤ n →
      ((buildGroupsAux slots i).map SlotGroup.span).sum = slots.length - i ∧
      (∀ g, (buildGroupsAux slots i).head? = some g → g.startSlot = i) ∧
      List.Chain' (fun g g' => g'.startSlot = g.startSlot + g.span)
        (buildGroupsAux slots i) ∧
      ∀ g ∈ buildGroupsAux slots i, 1 ≤ g.span ∧ g.span ≤ 4 := by
  intro n
  induction n with
  | zero =>
    intro i hi
    rw [buildGroupsAux, dif_neg (by omega)]
    refine ⟨by simp; omega, by simp, by simp, by simp⟩
  | succ n ih =>
    intro i hi
    by_cases h : i < slots.length
    · have hspan1 := one_le_spanAt slots i
      have hspan4 := spanAt_le_4 slots i
      have hbound := spanAt_bound slots i h
      have hrec := ih (i + spanAt slots i) (by omega)
      rw [buildGroupsAux, dif_pos h]
      obtain ⟨hsum, hhead, hchain, hspans⟩ := hrec
      refine ⟨?_, ?_, ?_, ?_⟩
      · simp only [List.map_cons, List.sum_cons, hsum]
        omega
      · intro g hg
        simp only [List.head?_cons, Option.some_inj] at hg
        rw [← hg]
      · rw [List.chain'_cons']
        exact ⟨fun b hb => (hhead b hb).symm ▸ rfl, hchain⟩
      · intro g hg
        rcases List.mem_cons.mp hg with rfl | hg'
        · exact ⟨hspan1, hspan4⟩
        · exact hspans g hg'
    · rw [buildGroupsAux, dif_neg h]
      refine ⟨by simp; omega, by simp, by simp, by simp⟩

/-- C4: for any 10-slot list the consolidated groups partition the slot
indices 0..9 in order: the first group starts at 0, every following group
starts where the previous one ends, the spans sum to 10, and every span
lies in 1..4. -/
theorem claim_C4_group_partition (slots : List SlotFeature)
    (h10 : slots.length = 10) :
    (∀ g, (buildGroups slots).head? = some g → g.startSlot = 0) ∧
    List.Chain' (fun g g' => g'.startSlot = g.startSlot + g.span)
      (buildGroups slots) ∧
    ((buildGroups slots).map SlotGroup.span).sum = 10 ∧
    ∀ g ∈ buildGroups slots, 1 ≤ g.span ∧ g.span ≤ 4 := by
  obtain ⟨hsum, hhead, hchain, hspans⟩ :=
    buildGroupsAux_spec slots slots.length 0 (by omega)
  exact ⟨hhead, hchain, by rw [show buildGroups slots = buildGroupsAux slots 0 from rfl, hsum]; omega,
    hspans⟩

/-- Ten concrete slots (alternating far-apart hashes, so every group is a
singleton) witnessing `claim_C4_group_partition`. -/
def tenSlots : List SlotFeature :=
  (List.range 10).map (fun i =>
    { index := i
      aHash64 := if i % 2 = 0 then "0000000000000000" else "ffffffffffffffff"
      dHash64 := "0000000000000000"
      pHash64 := "0000000000000000" })

/-- Concrete witness for `claim_C4_group_partition` on `tenSlots`. -/
theorem claim_C4_group_partition_witness :
    (∀ g, (buildGroups tenSlots).head? = some g → g.startSlot = 0) ∧
    List.Chain' (fun g g' => g'.startSlot = g.startSlot + g.span)
      (buildGroups tenSlots) ∧
    ((buildGroups tenSlots).map SlotGroup.span).sum = 10 ∧
    ∀ g ∈ buildGroups tenSlots, 1 ≤ g.span ∧ g.span ≤ 4 :=
  claim_C4_group_partition tenSlots (by decide)

theorem exists_slot_count_iff (items : List ClassificationCandidate) :
    (∃ s : Int, 2 ≤ items.countP (fun d => d.slot_index == s)) ↔
      (items.any (fun c =>
        2 ≤ items.countP (fun d => d.slot_index == c.slot_index)) = true) := by
  constructor
  · rintro ⟨s, hs⟩
    have hpos : 0 < items.countP (fun d => d.slot_index == s) := by omega
    obtain ⟨c, hc, hcs⟩ := List.countP_pos_iff.mp hpos
    rw [List.any_eq_true]
    refine ⟨c, hc, ?_⟩
    have hceq : c.slot_index = s := by simpa using hcs
    rw [hceq]
    simpa using hs
  · intro h
    obtain ⟨c, hc, hcount⟩ := List.any_eq_true.mp h
    exact ⟨c.slot_index, by simpa using hcount⟩

/-- C1: the derived global status depends only on the shape of the
item-candidate list: `disabled` iff the disabled flag is set; otherwise
`no_matches` iff there are no candidates, `ambiguous` iff some slot index
carries at least two candidates, and `matches` iff there is at least one
candidate and no slot carries two. -/
theorem claim_C1_status_shape (items : List ClassificationCandidate)
    (isDisabled : Bool) :
    (deriveStatusFromCandidates items isDisabled = Status.disabled ↔
      isDisabled = true) ∧
    (isDisabled = false →
      (deriveStatusFromCandidates items isDisabled = Status.no_matches ↔
        items = [])) ∧
    (isDisabled = false →
      (deriveStatusFromCandidates items isDisabled = Status.ambiguous ↔
        ∃ s : Int, 2 ≤ items.countP (fun d => d.slot_index == s))) ∧
    (isDisabled = false →
      (deriveStatusFromCandidates items isDisabled = Status.matches ↔
        items ≠ [] ∧ ¬∃ s : Int, 2 ≤ items.countP (fun d => d.slot_index == s))) := by
  have hiff := exists_slot_count_iff items
  cases isDisabled with
  | true =>
    refine ⟨by simp [deriveStatusFromCandidates], by simp, by simp, by simp⟩
  | false =>
    by_cases hemp : items.length = 0
    · have hnil : items = [] := List.length_eq_zero.mp hemp
      subst hnil
      refine ⟨by simp [deriveStatusFromCandidates], by simp [deriveStatusFromCandidates],
        by simp [deriveStatusFromCandidates], by simp [deriveStatusFromCandidates]⟩
    · by_cases hany : items.any (fun c =>
        2 ≤ items.countP (fun d => d.slot_index == c.slot_index)) = true
      · have hstat : deriveStatusFromCandidates items false = Status.ambiguous := by
          simp only [deriveStatusFromCandidates, Bool.false_eq_true, if_false, if_neg hemp,
            if_pos hany]
        refine ⟨by rw [hstat]; simp, fun _ => ?_, fun _ => ?_, fun _ => ?_⟩
        · rw [hstat]
          refine iff_of_false (by decide) (fun hc => ?_)
          rw [hc] at hemp
          simp at hemp
        · rw [hstat]
          exact iff_of_true rfl (hiff.mpr hany)
        · rw [hstat]
          exact iff_of_false (by decide) (fun hc => hc.2 (hiff.mpr hany))
      · have hstat : deriveStatusFromCandidates items false = Status.matches := by
          simp only [deriveStatusFromCandidates, Bool.false_eq_true, if_false, if_neg hemp,
            if_neg hany]
        refine ⟨by rw [hstat]; simp, fun _ => ?_, fun _ => ?_, fun _ => ?_⟩
        · rw [hstat]
          refine iff_of_false (by decide) (fun hc => ?_)
          rw [hc] at hemp
          simp at hemp
        · rw [hstat]
          exact iff_of_false (by decide) (fun hex => hany (hiff.mp hex))
        · rw [hstat]
          refine iff_of_true rfl ⟨fun hc => ?_, fun hex => hany (hiff.mp hex)⟩
          rw [hc] at hemp
          simp at hemp

/-- A contract item candidate used in concrete witnesses. -/
def mkItemCandidate (idv : String) (slot : Int) : ClassificationCandidate :=
  { kind := "item"
    id := idv
    label := "Unknown Item"
    confidence := 0
    source := "skeleton"
    slot_index := slot
    meta := { score := none, group_span := none } }

/-- Concrete witness for `claim_C1_status_shape`: two candidates on slot 0
derive status `ambiguous`. -/
theorem claim_C1_status_shape_witness :
    deriveStatusFromCandidates
      [mkItemCandidate "a" 0, mkItemCandidate "b" 0] false = Status.ambiguous :=
  ((claim_C1_status_shape [mkItemCandidate "a" 0, mkItemCandidate "b" 0]
      false).2.2.1 rfl).mpr ⟨0, by decide⟩

/-- One cached catalog entry `{id, name, aHash64, dHash64, pHash64}`. -/
structure ItemHash where
  id : Int
  name : String
  aHash64 : String
  dHash64 : String
  pHash64 : String
deriving DecidableEq

/-- The descending-score comparison implemented by
`scored.sort((a, b) => b.score - a.score)`. -/
def scoreGe (a b : Candidate) : Prop := b.score ≤ a.score

instance : DecidableRel scoreGe :=
  fun a b => inferInstanceAs (Decidable (b.score ≤ a.score))

instance : IsTotal Candidate scoreGe :=
  ⟨fun a b => le_total b.score a.score⟩

instance : IsTrans Candidate scoreGe :=
  ⟨fun _ _ _ hab hbc => le_trans hbc hab⟩

/-- Scoring one catalog entry against a group's representative hashes. -/
def scoreAgainst (g : SlotGroup) (it : ItemHash) : Candidate :=
  { itemId := it.id
    name := it.name
    score := scoreTripleHash g.aHash64 g.dHash64 g.pHash64 it.aHash64 it.dHash64 it.pHash64 }

/-- Derivation of `bestScore`/`secondScore`/`bestMargin`/`ambiguous`/
`autoDetected` from a candidate list, duplicated verbatim in the source at
the end of the matching loop and of the dominance-suppression loop. -/
def deriveGroupStats (g : SlotGroup) (cands : List Candidate) : SlotGroup :=
  let best := cands.head?
  let second := cands[1]?
  let margin : Int :=
    match best, second with
    | none, _ => 0
    | some b, none => b.score
    | some b, some s => b.score - s.score
  { g with
    candidates := cands
    bestScore := best.map Candidate.score
    secondScore := second.map Candidate.score
    bestMargin := some margin
    ambiguous := some (best.isNone ||
      (second.isSome && decide (margin < MIN_AUTODETECT_MARGIN)))
    autoDetected :=
      match best with
      | none => false
      | some b => decide (MIN_SCORE_AUTODETECT ≤ b.score) &&
          (second.isNone || decide (MIN_AUTODETECT_MARGIN ≤ margin)) }

/-- Per-group catalog matching: score every hashed catalog entry, sort by
descending score (JavaScript's sort is stable; modelled by the stable
insertion sort), retain scores at or above `MIN_SCORE_CANDIDATE`, truncate
to `TOP_N` and derive the group stats. -/
def matchGroup (itemHashes : List ItemHash) (g : SlotGroup) : SlotGroup :=
  let scored := itemHashes.map (scoreAgainst g)
  let sorted := scored.insertionSort scoreGe
  let filtered := sorted.filter (fun c => MIN_SCORE_CANDIDATE ≤ c.score)
  deriveGroupStats g (filtered.take TOP_N)

/-- Margin a dominant best item must already have to survive suppression
(`MIN_AUTODETECT_MARGIN + DOMINANT_MARGIN_BONUS`). -/
def requiredDominantMargin : Int := MIN_AUTODETECT_MARGIN + DOMINANT_MARGIN_BONUS

/-- Translation of `bestCountByItemId`: the number of groups whose top
candidate is the given catalog item, tallied over the pre-suppression
lists. -/
def bestCount (groups : List SlotGroup) (itemId : Int) : Nat :=
  groups.countP (fun g =>
    match g.candidates.head? with
    | some c => c.itemId == itemId
    | none => false)

/-- Body of the dominance-suppression loop for one group, with the
pre-tallied best counts passed in: skip groups without a best, with a
non-dominant best, or with margin at least `requiredDominantMargin`;
otherwise drop every candidate with the best item's id and re-derive the
group stats. -/
def suppressGroup (counts : Int → Nat) (g : SlotGroup) : SlotGroup :=
  match g.candidates.head? with
  | none => g
  | some best =>
    if counts best.itemId < DOMINANT_BEST_COUNT then g
    else if requiredDominantMargin ≤ g.bestMargin.getD 0 then g
    else deriveGroupStats g (g.candidates.filter (fun c => c.itemId != best.itemId))

/-- The dominance-suppression pass of the route: counts are tallied once
from the pre-suppression candidate lists, then every group is rewritten
independently. -/
def suppressDominant (groups : List SlotGroup) : List SlotGroup :=
  groups.map (suppressGroup (bestCount groups))

theorem deriveGroupStats_candidates (g : SlotGroup) (cands : List Candidate) :
    (deriveGroupStats g cands).candidates = cands := rfl

theorem matchGroup_candidates_inv (itemHashes : List ItemHash) (g : SlotGroup) :
    List.Sorted scoreGe (matchGroup itemHashes g).candidates ∧
    (∀ c ∈ (matchGroup itemHashes g).candidates,
      MIN_SCORE_CANDIDATE ≤ c.score ∧ ∃ it ∈ itemHashes, c = scoreAgainst g it) ∧
    (matchGroup itemHashes g).candidates.length ≤ TOP_N := by
  unfold matchGroup
  rw [deriveGroupStats_candidates]
  refine ⟨?_, ?_, ?_⟩
  · exact ((List.sorted_insertionSort scoreGe _).filter _).sublist (List.take_sublist _ _)
  · intro c hc
    have hcf := List.take_subset _ _ hc
    have hmem := List.mem_of_mem_filter hcf
    have hscore := List.of_mem_filter hcf
    refine ⟨by simpa using hscore, ?_⟩
    have : c ∈ (itemHashes.map (scoreAgainst g)) :=
      (List.mem_insertionSort scoreGe).mp hmem
    obtain ⟨it, hit, rfl⟩ := List.mem_map.mp this
    exact ⟨it, hit, rfl⟩
  · exact List.length_take_le _ _

theorem suppressGroup_eq_or_filter (counts : Int → Nat) (g : SlotGroup) :
    suppressGroup counts g = g ∨
    ∃ best, g.candidates.head? = some best ∧
      suppressGroup counts g =
        deriveGroupStats g (g.candidates.filter (fun c => c.itemId != best.itemId)) := by
  unfold suppressGroup
  rcases h : g.candidates.head? with _ | best
  · exact Or.inl rfl
  · dsimp only
    by_cases h1 : counts best.itemId < DOMINANT_BEST_COUNT
    · rw [if_pos h1]
      exact Or.inl rfl
    · rw [if_neg h1]
      by_cases h2 : requiredDominantMargin ≤ g.bestMargin.getD 0
      · rw [if_pos h2]
        exact Or.inl rfl
      · rw [if_neg h2]
        exact Or.inr ⟨best, rfl, rfl⟩

theorem candidatesFromGroups_map_empty (groups : List SlotGroup) :
    candidatesFromGroups (groups.map (matchGroup ([] : List ItemHash))) = [] := by
  induction groups with
  | nil => rfl
  | cons g0 gs ih =>
    unfold candidatesFromGroups at *
    rw [List.map_cons, List.flatMap_cons,
      show (matchGroup ([] : List ItemHash) g0).candidates = [] from rfl]
    simpa using ih

/-- C7: every retained candidate of a matched group scores at least
`MIN_SCORE_CANDIDATE` and arises from scoring a cached catalog entry
against the group; the retained list is sorted by descending score with at
most `TOP_N` entries; and with an empty catalog every group retains zero
candidates, so the derived global status is `no_matches`. -/
theorem claim_C7_catalog_matching (itemHashes : List ItemHash) (g : SlotGroup)
    (groups : List SlotGroup) :
    List.Sorted scoreGe (matchGroup itemHashes g).candidates ∧
    (∀ c ∈ (matchGroup itemHashes g).candidates,
      MIN_SCORE_CANDIDATE ≤ c.score ∧ ∃ it ∈ itemHashes, c = scoreAgainst g it) ∧
    (matchGroup itemHashes g).candidates.length ≤ TOP_N ∧
    (matchGroup ([] : List ItemHash) g).candidates = [] ∧
    deriveStatusFromCandidates
      (candidatesFromGroups (groups.map (matchGroup ([] : List ItemHash)))) false =
      Status.no_matches := by
  obtain ⟨h1, h2, h3⟩ := matchGroup_candidates_inv itemHashes g
  refine ⟨h1, h2, h3, rfl, ?_⟩
  rw [candidatesFromGroups_map_empty]
  rfl

/-- A group and a catalog entry with identical triple hashes, used in
concrete witnesses (the entry scores 64 against the group). -/
def sampleGroup : SlotGroup :=
  { startSlot := 0
    span := 1
    aHash64 := "0000000000000000"
    dHash64 := "0000000000000000"
    pHash64 := "0000000000000000"
    autoDetected := false
    candidates := []
    bestScore := none
    secondScore := none
    bestMargin := none
    ambiguous := none }

/-- Catalog entry whose hashes equal `sampleGroup`'s. -/
def sampleItem : ItemHash :=
  { id := 7
    name := "Bolt"
    aHash64 := "0000000000000000"
    dHash64 := "0000000000000000"
    pHash64 := "0000000000000000" }

/-- Concrete witness for `claim_C7_catalog_matching`: the perfectly
matching entry is retained, and an empty catalog derives `no_matches`. -/
theorem claim_C7_catalog_matching_witness :
    (MIN_SCORE_CANDIDATE ≤ (scoreAgainst sampleGroup sampleItem).score ∧
      ∃ it ∈ [sampleItem],
        scoreAgainst sampleGroup sampleItem = scoreAgainst sampleGroup it) ∧
    deriveStatusFromCandidates
      (candidatesFromGroups ([sampleGroup].map (matchGroup ([] : List ItemHash)))) false =
      Status.no_matches :=
  ⟨(claim_C7_catalog_matching [sampleItem] sampleGroup [sampleGroup]).2.1
      (scoreAgainst sampleGroup sampleItem) (by decide),
    (claim_C7_catalog_matching [sampleItem] sampleGroup [sampleGroup]).2.2.2.2⟩

/-- C3: in the dominance-suppression pass, any group whose top candidate's
item is the best of at least `DOMINANT_BEST_COUNT` groups and whose margin
is below `requiredDominantMargin` has that item removed entirely from its
candidate list, with `bestScore`/`secondScore`/`bestMargin`/`ambiguous`/
`autoDetected` re-derived from the remaining candidates. -/
theorem claim_C3_dominance_suppression (groups : List SlotGroup) (i : Nat)
    (g : SlotGroup) (hg : groups[i]? = some g) (best : Candidate)
    (hbest : g.candidates.head? = some best)
    (hcount : DOMINANT_BEST_COUNT ≤ bestCount groups best.itemId)
    (hmargin : g.bestMargin.getD 0 < requiredDominantMargin) :
    (suppressDominant groups)[i]? =
      some (deriveGroupStats g
        (g.candidates.filter (fun c => c.itemId != best.itemId))) ∧
    ∀ c ∈ (deriveGroupStats g
        (g.candidates.filter (fun c => c.itemId != best.itemId))).candidates,
      c.itemId ≠ best.itemId := by
  constructor
  · unfold suppressDominant
    rw [List.getElem?_map, hg, Option.map_some']
    congr 1
    unfold suppressGroup
    rw [hbest]
    dsimp only
    rw [if_neg (by omega), if_neg (by omega)]
  · intro c hc
    rw [deriveGroupStats_candidates] at hc
    have := List.of_mem_filter hc
    simpa using this

/-- Top candidate of the synthetic dominant-item scenario: item 1 at score
40. -/
def domCand1 : Candidate := { itemId := 1, name := "Lens", score := 40 }

/-- Runner-up of the synthetic scenario: item 2 at score 38, so the margin
is 2 (= minimum auto-detect margin − 1). -/
def domCand2 : Candidate := { itemId := 2, name := "Prism", score := 38 }

/-- One group of the synthetic dominance scenario at a given start slot. -/
def domGroupAt (k : Nat) : SlotGroup :=
  { startSlot := k
    span := 1
    aHash64 := "0000000000000000"
    dHash64 := "0000000000000000"
    pHash64 := "0000000000000000"
    autoDetected := false
    candidates := [domCand1, domCand2]
    bestScore := some 40
    secondScore := some 38
    bestMargin := some 2
    ambiguous := some true }

/-- Three groups all led by item 1 at margin 2. -/
def domGroups : List SlotGroup := [domGroupAt 0, domGroupAt 1, domGroupAt 2]

/-- Concrete witness for `claim_C3_dominance_suppression`: item 1, best of
all three groups at margin 2, is removed from each group's list and each
group's stats are re-derived. -/
theorem claim_C3_dominance_suppression_witness :
    (suppressDominant domGroups)[0]? =
      some (deriveGroupStats (domGroupAt 0)
        ((domGroupAt 0).candidates.filter (fun c => c.itemId != domCand1.itemId))) ∧
    (suppressDominant domGroups)[1]? =
      some (deriveGroupStats (domGroupAt 1)
        ((domGroupAt 1).candidates.filter (fun c => c.itemId != domCand1.itemId))) ∧
    (suppressDominant domGroups)[2]? =
      some (deriveGroupStats (domGroupAt 2)
        ((domGroupAt 2).candidates.filter (fun c => c.itemId != domCand1.itemId))) :=
  ⟨(claim_C3_dominance_suppression domGroups 0 (domGroupAt 0) (by decide) domCand1
      (by decide) (by decide) (by decide)).1,
    (claim_C3_dominance_suppression domGroups 1 (domGroupAt 1) (by decide) domCand1
      (by decide) (by decide) (by decide)).1,
    (claim_C3_dominance_suppression domGroups 2 (domGroupAt 2) (by decide) domCand1
      (by decide) (by decide) (by decide)).1⟩

/-- C10: the dominance-suppression pass cannot cascade — best counts are
tallied from the pre-suppression lists, so a group whose own
pre-suppression data does not meet the removal conditions is returned
unchanged regardless of removals in other groups — and it preserves the
candidate-list invariants established by matching: descending order,
scores at least `MIN_SCORE_CANDIDATE`, length at most `TOP_N`. -/
theorem claim_C10_suppression_no_cascade (itemHashes : List ItemHash)
    (gs0 : List SlotGroup) :
    (∀ g' ∈ suppressDominant (gs0.map (matchGroup itemHashes)),
      List.Sorted scoreGe g'.candidates ∧
      (∀ c ∈ g'.candidates, MIN_SCORE_CANDIDATE ≤ c.score) ∧
      g'.candidates.length ≤ TOP_N) ∧
    (∀ (i : Nat) (g : SlotGroup), (gs0.map (matchGroup itemHashes))[i]? = some g →
      (∀ best : Candidate, g.candidates.head? = some best →
        bestCount (gs0.map (matchGroup itemHashes)) best.itemId < DOMINANT_BEST_COUNT ∨
        requiredDominantMargin ≤ g.bestMargin.getD 0) →
      (suppressDominant (gs0.map (matchGroup itemHashes)))[i]? = some g) := by
  constructor
  · intro g' hg'
    obtain ⟨g, hgmem, rfl⟩ := List.mem_map.mp hg'
    obtain ⟨g0, _, rfl⟩ := List.mem_map.mp hgmem
    obtain ⟨hsort, hmem, hlen⟩ := matchGroup_candidates_inv itemHashes g0
    rcases suppressGroup_eq_or_filter (bestCount (gs0.map (matchGroup itemHashes)))
        (matchGroup itemHashes g0) with heq | ⟨best, _, heq⟩
    · rw [heq]
      exact ⟨hsort, fun c hc => (hmem c hc).1, hlen⟩
    · rw [heq, deriveGroupStats_candidates]
      refine ⟨hsort.filter _, ?_, ?_⟩
      · intro c hc
        exact (hmem c (List.mem_of_mem_filter hc)).1
      · exact le_trans (List.length_filter_le _ _) hlen
  · intro i g hg hcond
    unfold suppressDominant
    rw [List.getElem?_map, hg, Option.map_some']
    congr 1
    unfold suppressGroup
    rcases hb : g.candidates.head? with _ | best
    · rfl
    · dsimp only
      rcases hcond best hb with hlt | hge
      · rw [if_pos hlt]
      · by_cases hlt : bestCount (gs0.map (matchGroup itemHashes)) best.itemId <
            DOMINANT_BEST_COUNT
        · rw [if_pos hlt]
        · rw [if_neg hlt, if_pos hge]

/-- Concrete witness for `claim_C10_suppression_no_cascade` on a one-group
request with an empty catalog: the group passes through unchanged and the
invariants hold. -/
theorem claim_C10_suppression_no_cascade_witness :
    (List.Sorted scoreGe (matchGroup ([] : List ItemHash) sampleGroup).candidates ∧
      (∀ c ∈ (matchGroup ([] : List ItemHash) sampleGroup).candidates,
        MIN_SCORE_CANDIDATE ≤ c.score) ∧
      (matchGroup ([] : List ItemHash) sampleGroup).candidates.length ≤ TOP_N) ∧
    (suppressDominant ([sampleGroup].map (matchGroup ([] : List ItemHash))))[0]? =
      some (matchGroup ([] : List ItemHash) sampleGroup) :=
  ⟨(claim_C10_suppression_no_cascade [] [sampleGroup]).1
      (matchGroup ([] : List ItemHash) sampleGroup) (by decide),
    (claim_C10_suppression_no_cascade [] [sampleGroup]).2 0
      (matchGroup ([] : List ItemHash) sampleGroup) (by decide)
      (fun best hb => by
        rw [show (matchGroup ([] : List ItemHash) sampleGroup).candidates.head? =
          none from rfl] at hb
        exact Option.noConfusion hb)⟩

/-- Evidence signal `{source, type, value, weight, meta}`.  Of `meta`,
only `slot_index` participates in the canonical sort key and is the one
field modelled; `weight` does not participate in the key. -/
structure EvidenceSignal where
  source : String
  type : String
  value : String
  weight : ℚ
  slotIndex : Option Int
deriving DecidableEq

/-- Model of `String(slot).padStart(4, "0")` for the slot component of the key. -/
def padStart4 (s : String) : String :=
  if s.length < 4 then String.mk (List.replicate (4 - s.length) '0') ++ s else s

/-- Translation of `signalSortKey`:
`source|type|slotKey|value`, with `slotKey` the zero-padded decimal slot
index when `meta.slot_index` is a number and `"zzzz"` otherwise. -/
def signalSortKey (s : EvidenceSignal) : String :=
  let slotKey :=
    match s.slotIndex with
    | some n => padStart4 (toString n)
    | none => "zzzz"
  s.source ++ "|" ++ s.type ++ "|" ++ slotKey ++ "|" ++ s.value

/-- Lexicographic character comparison: the order JavaScript's `<`/`>` on
strings implements (code-unit-wise; the canonical keys are ASCII). -/
def charListLe : List Char → List Char → Bool
  | [], _ => true
  | _ :: _, [] => false
  | a :: as, b :: bs =>
    if a < b then true
    else if b < a then false
    else charListLe as bs

theorem charListLe_refl : ∀ l : List Char, charListLe l l = true
  | [] => rfl
  | a :: as => by
    unfold charListLe
    rw [if_neg (lt_irrefl a), if_neg (lt_irrefl a)]
    exact charListLe_refl as

theorem charListLe_total :
    ∀ xs ys : List Char, charListLe xs ys = true ∨ charListLe ys xs = true
  | [], _ => Or.inl rfl
  | _ :: _, [] => Or.inr rfl
  | a :: as, b :: bs => by
    rcases lt_trichotomy a b with h | h | h
    · left
      unfold charListLe
      rw [if_pos h]
    · subst h
      unfold charListLe
      rw [if_neg (lt_irrefl a), if_neg (lt_irrefl a), if_neg (lt_irrefl a),
        if_neg (lt_irrefl a)]
      exact charListLe_total as bs
    · right
      unfold charListLe
      rw [if_pos h]

theorem charListLe_trans :
    ∀ xs ys zs : List Char, charListLe xs ys = true → charListLe ys zs = true →
      charListLe xs zs = true
  | [], _, _, _, _ => rfl
  | x :: xs, [], _, h1, _ => by simp [charListLe] at h1
  | _ :: _, _ :: _, [], _, h2 => by simp [charListLe] at h2
  | a :: as, b :: bs, c :: cs, h1, h2 => by
    unfold charListLe at h1 h2 ⊢
    rcases lt_trichotomy a b with hab | hab | hab
    · rcases lt_trichotomy b c with hbc | hbc | hbc
      · rw [if_pos (lt_trans hab hbc)]
      · subst hbc
        rw [if_pos hab]
      · rw [if_neg (lt_asymm hbc), if_pos hbc] at h2
        exact absurd h2 (by simp)
    · subst hab
      rw [if_neg (lt_irrefl a), if_neg (lt_irrefl a)] at h1
      rcases lt_trichotomy a c with hac | hac | hac
      · rw [if_pos hac]
      · subst hac
        rw [if_neg (lt_irrefl a), if_neg (lt_irrefl a)] at h2 ⊢
        exact charListLe_trans as bs cs h1 h2
      · rw [if_neg (lt_asymm hac), if_pos hac] at h2
        exact absurd h2 (by simp)
    · rw [if_neg (lt_asymm hab), if_pos hab] at h1
      exact absurd h1 (by simp)

theorem charListLe_antisymm :
    ∀ xs ys : List Char, charListLe xs ys = true → charListLe ys xs = true →
      xs = ys
  | [], [], _, _ => rfl
  | [], _ :: _, _, h2 => by simp [charListLe] at h2
  | _ :: _, [], h1, _ => by simp [charListLe] at h1
  | a :: as, b :: bs, h1, h2 => by
    unfold charListLe at h1 h2
    rcases lt_trichotomy a b with hab | hab | hab
    · rw [if_neg (lt_asymm hab), if_pos hab] at h2
      exact absurd h2 (by simp)
    · subst hab
      rw [if_neg (lt_irrefl a), if_neg (lt_irrefl a)] at h1 h2
      rw [charListLe_antisymm as bs h1 h2]
    · rw [if_neg (lt_asymm hab), if_pos hab] at h1
      exact absurd h1 (by simp)

/-- Comparator order implemented by the `sort` callback of
`sortSignalsStable` (compare the two canonical keys). -/
def keyLe (a b : EvidenceSignal) : Prop :=
  charListLe (signalSortKey a).data (signalSortKey b).data = true

instance : DecidableRel keyLe :=
  fun a b => inferInstanceAs
    (Decidable (charListLe (signalSortKey a).data (signalSortKey b).data = true))

instance : IsTotal EvidenceSignal keyLe :=
  ⟨fun a b => charListLe_total (signalSortKey a).data (signalSortKey b).data⟩

instance : IsTrans EvidenceSignal keyLe :=
  ⟨fun _ _ _ hab hbc => charListLe_trans _ _ _ hab hbc⟩

theorem keyLe_antisymm {a b : EvidenceSignal} (hab : keyLe a b) (hba : keyLe b a) :
    signalSortKey a = signalSortKey b := by
  have hdata := charListLe_antisymm _ _ hab hba
  cases ha : signalSortKey a
  cases hb : signalSortKey b
  rw [ha, hb] at hdata
  exact congrArg String.mk (by simpa using hdata)

/-- Translation of `sortSignalsStable`: a stable sort of the signals by
the canonical key (JavaScript's `Array.prototype.sort` is stable;
modelled by the stable insertion sort over the same total preorder). -/
def sortSignalsStable (signals : List EvidenceSignal) : List EvidenceSignal :=
  signals.insertionSort keyLe

theorem sorted_perm_eq_of_key_inj :
    ∀ (l1 l2 : List EvidenceSignal), l1.Perm l2 →
      List.Sorted keyLe l1 → List.Sorted keyLe l2 →
      (∀ a ∈ l1, ∀ b ∈ l1, signalSortKey a = signalSortKey b → a = b) →
      l1 = l2 := by
  intro l1
  induction l1 with
  | nil =>
    intro l2 hp _ _ _
    exact (hp.symm.eq_nil).symm
  | cons a t1 ih =>
    intro l2 hp hs1 hs2 hinj
    cases l2 with
    | nil => exact absurd hp.eq_nil (by simp)
    | cons b t2 =>
      have hb1 : b ∈ a :: t1 := hp.symm.subset (List.mem_cons_self b t2)
      have hab : keyLe a b := by
        rcases List.mem_cons.mp hb1 with rfl | hbt
        · exact charListLe_refl _
        · exact (List.rel_of_sorted_cons hs1) b hbt
      have hba : keyLe b a := by
        have ha2 : a ∈ b :: t2 := hp.subset (List.mem_cons_self a t1)
        rcases List.mem_cons.mp ha2 with rfl | hat
        · exact charListLe_refl _
        · exact (List.rel_of_sorted_cons hs2) a hat
      have hkey : signalSortKey a = signalSortKey b := keyLe_antisymm hab hba
      have hab' : a = b := hinj a (List.mem_cons_self a t1) b hb1 hkey
      subst hab'
      have htl := ih t2 hp.cons_inv hs1.of_cons hs2.of_cons
        (fun x hx y hy hk =>
          hinj x (List.mem_cons_of_mem a hx) y (List.mem_cons_of_mem a hy) hk)
      rw [htl]

/-- First of two distinct signals sharing the canonical key (they differ
only in `weight`, which the key ignores). -/
def sigKeyClashA : EvidenceSignal :=
  { source := "skeleton", type := "gate", value := "dup", weight := 1, slotIndex := some 0 }

/-- Second of the two key-sharing signals. -/
def sigKeyClashB : EvidenceSignal :=
  { source := "skeleton", type := "gate", value := "dup", weight := 0, slotIndex := some 0 }

/-- C8 counterexample: two distinct signals with identical canonical keys
(same source, type, slot and value, different weight) keep their input
order under the stable sort, so two permutations of the same signals
serialize differently. -/
theorem claim_C8_canonical_order_counterexample :
    sigKeyClashA ≠ sigKeyClashB ∧
    List.Perm [sigKeyClashA, sigKeyClashB] [sigKeyClashB, sigKeyClashA] ∧
    signalSortKey sigKeyClashA = signalSortKey sigKeyClashB ∧
    sortSignalsStable [sigKeyClashA, sigKeyClashB] ≠
      sortSignalsStable [sigKeyClashB, sigKeyClashA] :=
  ⟨by decide, List.Perm.swap sigKeyClashB sigKeyClashA [], by decide, by decide⟩

/-- C8 (amended): the canonical sorting function is permutation-invariant
on any signal list whose members are distinguished by the canonical key
(no two distinct signals share source, type, slot position and value):
differently ordered generation of such signals serializes identically. -/
theorem claim_C8_canonical_order (l1 l2 : List EvidenceSignal)
    (hperm : l1.Perm l2)
    (hinj : ∀ a ∈ l1, ∀ b ∈ l1, signalSortKey a = signalSortKey b → a = b) :
    sortSignalsStable l1 = sortSignalsStable l2 := by
  apply sorted_perm_eq_of_key_inj
  · exact ((List.perm_insertionSort keyLe l1).trans hperm).trans
      (List.perm_insertionSort keyLe l2).symm
  · exact List.sorted_insertionSort keyLe l1
  · exact List.sorted_insertionSort keyLe l2
  · intro a ha b hb
    exact hinj a ((List.mem_insertionSort keyLe).mp ha) b
      ((List.mem_insertionSort keyLe).mp hb)

/-- A signal whose key differs from the clash pair's (different value). -/
def sigDistinct : EvidenceSignal :=
  { source := "skeleton", type := "mode", value := "ambiguous", weight := 1, slotIndex := none }

/-- Concrete witness for `claim_C8_canonical_order`: two key-distinct
signals sort identically from either input order. -/
theorem claim_C8_canonical_order_witness :
    sortSignalsStable [sigKeyClashA, sigDistinct] =
      sortSignalsStable [sigDistinct, sigKeyClashA] :=
  claim_C8_canonical_order [sigKeyClashA, sigDistinct] [sigDistinct, sigKeyClashA]
    (List.Perm.swap sigDistinct sigKeyClashA []) (by decide)

end BazaarTracker
